import Mathlib

/-!
Verification of the execution core of the caffe2 runtime against its
natural-language specification.  Each section shallowly embeds the relevant
C++ source (`caffe2/core/workspace.cc`, `caffe2/core/net_gpu.cc`,
`caffe2/core/operator_schema.cc`, `caffe2/operators/dataset_ops.cc`,
`caffe2/operators/load_save_op.h`) as executable Lean definitions and proves
the claimed properties about them.
-/

namespace Caffe2

/-! ## Plan engine (`caffe2/core/workspace.cc`)

Blobs are runtime-typed cells.  For the plan-engine claims we need the
distinction drawn by `getShouldStop`: a blob may be uninitialized
(`meta().id() == 0`), hold a CPU tensor of booleans, or hold some other
payload (for which `Get<TensorCPU>` / the scalar-bool enforcement throws).
`natVal` stands for an arbitrary non-tensor payload that concrete test nets
use as a counter. -/

inductive BlobValue where
  | uninit : BlobValue
  | boolTensor : List Bool → BlobValue
  | natVal : Nat → BlobValue
  | opaqueVal : BlobValue
  deriving DecidableEq, Repr

/-- A workspace's blob map, modelled as an association list
(name, current contents). -/
abbrev Ws := List (String × BlobValue)

def wsLookup (ws : Ws) (n : String) : Option BlobValue :=
  match ws with
  | [] => none
  | (k, v) :: rest => if k = n then some v else wsLookup rest n

/-- Mutate (or create) the blob named `n`. -/
def wsSet (ws : Ws) (n : String) (v : BlobValue) : Ws :=
  match ws with
  | [] => [(n, v)]
  | (k, w) :: rest => if k = n then (n, v) :: rest else (k, w) :: wsSet rest n v

/-- `getShouldStop` (workspace.cc:42-50): a null blob pointer or an
uninitialized blob reads as `false`; otherwise the blob must hold a
one-element boolean `TensorCPU` whose value is returned; anything else
trips `CAFFE_ENFORCE` (modelled as `Except.error`). -/
def getShouldStop (b : Option BlobValue) : Except String Bool :=
  match b with
  | none => .ok false
  | some .uninit => .ok false
  | some (.boolTensor [v]) => .ok v
  | some (.boolTensor _) => .error "expects a scalar boolean"
  | some (.natVal _) => .error "wrong type; accessing as TensorCPU"
  | some .opaqueVal => .error "wrong type; accessing as TensorCPU"

/-- An `ExecutionStep` restricted to the fields that control iteration
(claims about the network-list execution path).  `Option` models protobuf
field presence (`has_*`). -/
structure StepDef where
  num_iter : Option Int
  should_stop_blob : Option String
  only_once : Option Bool

/-- `getContinuationTest` (workspace.cc:54-79).  Errors model
`CAFFE_ENFORCE` failures. -/
def getContinuationTest (step : StepDef) : Except String (Nat → Bool) :=
  match step.should_stop_blob with
  | none =>
    if step.only_once.isSome then .error "not supported"
    else
      let iterations : Int := step.num_iter.getD 1
      .ok (fun i => (i : Int) < iterations)
  | some _ =>
    if step.num_iter.isSome then
      .error "Must not specify num_iter if should_stop_blob is set"
    else
      let onlyOnce := step.only_once.getD false
      if onlyOnce then .ok (fun i => i == 0) else .ok (fun _ => true)

/-- A net's `Run()`: mutates the workspace and returns a success flag. -/
abbrev NetSem := Ws → Ws × Bool

/-- `CHECK_SHOULD_STOP` (workspace.cc:298-303): when the step has no
should-stop blob the pointer is null and `getShouldStop` returns false;
otherwise poll the blob's current contents. -/
def checkShouldStop (stopBlob : Option String) (ws : Ws) : Except String Bool :=
  match stopBlob with
  | none => getShouldStop none
  | some n => getShouldStop (wsLookup ws n)

/-- Outcome of one pass over a step's network list. -/
inductive IterOutcome where
  | completed : IterOutcome
  | stopped : IterOutcome
  | failed : IterOutcome
  deriving DecidableEq, Repr

/-- One iteration of the network loop (workspace.cc:426-434): run each net
in order; a net returning false aborts the step with failure; after each
net the should-stop blob is polled and a true value stops the step
successfully.  The `Nat` in the result counts `network->Run()` calls. -/
def runNetsOnce (stopBlob : Option String) :
    List NetSem → Ws → Except String (Ws × IterOutcome × Nat)
  | [], ws => .ok (ws, .completed, 0)
  | net :: rest, ws =>
    let r := net ws
    if !r.2 then .ok (r.1, .failed, 1)
    else
      match checkShouldStop stopBlob r.1 with
      | .error e => .error e
      | .ok true => .ok (r.1, .stopped, 1)
      | .ok false =>
        match runNetsOnce stopBlob rest r.1 with
        | .error e => .error e
        | .ok (ws2, out, c) => .ok (ws2, out, c + 1)

/-- The iteration loop `for (iter = 0; shouldContinue(iter); ++iter)` of the
network-only execution path.  `fuel` bounds the number of iterations of the
model (the C++ loop can run unboundedly in stop-blob mode); exhausting it is
an artefact of the embedding, reported as an error. -/
def stepLoop (external cont : Nat → Bool) (stopBlob : Option String)
    (nets : List NetSem) : Ws → Nat → Nat → Except String (Ws × Bool × Nat)
  | _, _, 0 => .error "model: fuel exhausted"
  | ws, iter, fuel + 1 =>
    if external iter && cont iter then
      match runNetsOnce stopBlob nets ws with
      | .error e => .error e
      | .ok (ws1, .failed, c) => .ok (ws1, false, c)
      | .ok (ws1, .stopped, c) => .ok (ws1, true, c)
      | .ok (ws1, .completed, c) =>
        match stepLoop external cont stopBlob nets ws1 (iter + 1) fuel with
        | .error e => .error e
        | .ok (ws2, b, c2) => .ok (ws2, b, c + c2)
    else .ok (ws, true, 0)

/-- `Workspace::ExecuteStepRecursive` specialized to a step that carries a
network list (workspace.cc:305-437, `else` branch at 415): enforce that the
should-stop blob exists when named, build the continuation test, then run the
iteration loop.  The result carries the final workspace, the step's boolean
result, and the total number of `network->Run()` invocations. -/
def execNetworkStep (step : StepDef) (nets : List NetSem)
    (external : Nat → Bool) (ws : Ws) (fuel : Nat) :
    Except String (Ws × Bool × Nat) :=
  let stopExists :=
    match step.should_stop_blob with
    | some n => (wsLookup ws n).isSome
    | none => true
  if !stopExists then .error "blob does not exist"
  else
    match getContinuationTest step with
    | .error e => .error e
    | .ok cont => stepLoop external cont step.should_stop_blob nets ws 0 fuel

/-! ### Concrete plan-engine scenarios -/

/-- The net of the spec's stop-blob scenario: its last op sets `stop` to true
on iteration 5 (it keeps its iteration count in a `count` blob). -/
def c1Net : NetSem := fun ws =>
  let c := match wsLookup ws "count" with
    | some (.natVal n) => n + 1
    | _ => 1
  let ws1 := wsSet ws "count" (.natVal c)
  let ws2 := wsSet ws1 "stop" (.boolTensor [c == 5])
  (ws2, true)

/-- Initial workspace for the stop-blob scenario: `stop = false`. -/
def c1Ws0 : Ws := [("stop", .boolTensor [false]), ("count", .natVal 0)]

/-- The scenario step as written in the spec: both `num_iter = 100` and
`should_stop_blob = stop` are set. -/
def c1StepBoth : StepDef :=
  { num_iter := some 100, should_stop_blob := some "stop", only_once := none }

/-- The scenario step with only `should_stop_blob = stop` set. -/
def c1StepStop : StepDef :=
  { num_iter := none, should_stop_blob := some "stop", only_once := none }

/-- A net recording that it ran by bumping a `ran` counter blob. -/
def c2Net : NetSem := fun ws =>
  let c := match wsLookup ws "ran" with
    | some (.natVal n) => n + 1
    | _ => 1
  (wsSet ws "ran" (.natVal c), true)

/-- Initial workspace with the stop blob already true. -/
def c2Ws0 : Ws := [("stop", .boolTensor [true]), ("ran", .natVal 0)]

/-- Step controlled by the (initially true) stop blob. -/
def c2Step : StepDef :=
  { num_iter := none, should_stop_blob := some "stop", only_once := none }

/-- C1 counterexample: the spec's scenario sets both `num_iter = 100` and
`should_stop_blob = stop`, but `getContinuationTest` enforces that `num_iter`
must not be set together with `should_stop_blob`, so the step aborts instead
of succeeding after 5 iterations. -/
theorem c1_both_fields_step_aborts :
    execNetworkStep c1StepBoth [c1Net] (fun _ => true) c1Ws0 200 =
      .error "Must not specify num_iter if should_stop_blob is set" ∧
    (execNetworkStep c1StepBoth [c1Net] (fun _ => true) c1Ws0 200).isOk = false := by
  exact ⟨rfl, rfl⟩

/-- C1 (amended): a step may set at most one of `num_iter` and
`should_stop_blob` — setting both makes execution abort with an enforce
failure; with only `should_stop_blob = stop` set, `stop` initially false and
the net setting `stop` true on its 5th iteration, the step runs the net
exactly 5 times and succeeds; when `should_stop_blob` is set (and not
`only_once`) the continuation test ignores the iteration count entirely, and
when it is not set (and `only_once` is absent) iteration is governed by
`num_iter` with default 1. -/
theorem c1_iteration_governance
    (step : StepDef) (nets : List NetSem) (external : Nat → Bool)
    (ws : Ws) (fuel : Nat)
    (hni : step.num_iter.isSome) (hsb : step.should_stop_blob.isSome) :
    (execNetworkStep step nets external ws fuel).isOk = false ∧
    execNetworkStep c1StepStop [c1Net] (fun _ => true) c1Ws0 200 =
      .ok ([("stop", .boolTensor [true]), ("count", .natVal 5)], true, 5) ∧
    (∀ s : StepDef, s.should_stop_blob.isSome → s.num_iter = none →
      s.only_once.getD false = false →
      getContinuationTest s = .ok (fun _ => true)) ∧
    (∀ s : StepDef, s.should_stop_blob = none → s.only_once = none →
      getContinuationTest s = .ok (fun i => (i : Int) < s.num_iter.getD 1)) := by
  refine ⟨?_, rfl, ?_, ?_⟩
  · unfold execNetworkStep
    rcases h : step.should_stop_blob with _ | n
    · rw [h] at hsb; simp at hsb
    · simp only [h]
      have hct : getContinuationTest step =
          .error "Must not specify num_iter if should_stop_blob is set" := by
        simp [getContinuationTest, h, hni]
      split
      · rfl
      · rw [hct]; rfl
  · intro s h1 h2 h3
    unfold getContinuationTest
    rcases hs : s.should_stop_blob with _ | n
    · rw [hs] at h1; simp at h1
    · simp [h2, h3]
  · intro s h1 h2
    unfold getContinuationTest
    simp [h1, h2]

/-- Witness for `c1_iteration_governance` at the concrete scenario data. -/
theorem c1_iteration_governance_witness :
    (execNetworkStep c1StepBoth [c1Net] (fun _ => true) c1Ws0 200).isOk = false ∧
    execNetworkStep c1StepStop [c1Net] (fun _ => true) c1Ws0 200 =
      .ok ([("stop", .boolTensor [true]), ("count", .natVal 5)], true, 5) := by
  have h := c1_iteration_governance c1StepBoth [c1Net] (fun _ => true) c1Ws0 200
    (by decide) (by decide)
  exact ⟨h.1, h.2.1⟩

/-- C2 counterexample: a step whose stop blob is already true runs its first
network once — the stop blob is only polled after each network run — so the
number of network executions is 1, not 0 as the claim states. -/
theorem c2_initial_true_runs_first_net :
    execNetworkStep c2Step [c2Net] (fun _ => true) c2Ws0 10 =
      .ok ([("stop", .boolTensor [true]), ("ran", .natVal 1)], true, 1) ∧
    (1 : Nat) ≠ 0 := by
  exact ⟨rfl, by decide⟩

/-- C2 (amended): for a step whose `should_stop_blob` reads true before the
step starts (and `num_iter` unset, as the code requires), the step does not
run zero networks: it always executes the first network once, because the
stop blob is polled only after each network run; if that first run succeeds
and the blob still reads true, the step stops successfully with exactly one
network execution. -/
theorem c2_initial_true_one_net_run
    (step : StepDef) (n : String) (net : NetSem) (rest : List NetSem)
    (external : Nat → Bool) (ws ws1 : Ws) (fuel : Nat)
    (hsb : step.should_stop_blob = some n) (hni : step.num_iter = none)
    (hexist : (wsLookup ws n).isSome)
    (hnet : net ws = (ws1, true))
    (hstop : getShouldStop (wsLookup ws1 n) = .ok true)
    (hext : external 0 = true) (hfuel : 1 ≤ fuel) :
    execNetworkStep step (net :: rest) external ws fuel =
      .ok (ws1, true, 1) := by
  obtain ⟨f, rfl⟩ : ∃ f, fuel = f + 1 := ⟨fuel - 1, by omega⟩
  have hrun : runNetsOnce (some n) (net :: rest) ws = .ok (ws1, .stopped, 1) := by
    unfold runNetsOnce
    rw [hnet]
    simp [checkShouldStop, hstop]
  have hloop : ∀ cont : Nat → Bool, cont 0 = true →
      stepLoop external cont (some n) (net :: rest) ws 0 (f + 1) =
        .ok (ws1, true, 1) := by
    intro cont hc
    unfold stepLoop
    rw [hext, hc, hrun]
    rfl
  unfold execNetworkStep getContinuationTest
  rw [hsb]
  simp only [hexist, Bool.not_true, Bool.false_eq_true, if_false, hni,
    Option.isSome_none, Bool.false_eq_true, if_false]
  rcases honce : step.only_once.getD false
  · simp only [Bool.false_eq_true, if_false]
    exact hloop _ rfl
  · simp only [if_true]
    exact hloop _ rfl

/-- Witness for `c2_initial_true_one_net_run` at the concrete scenario. -/
theorem c2_initial_true_one_net_run_witness :
    execNetworkStep c2Step [c2Net] (fun _ => true) c2Ws0 10 =
      .ok ([("stop", .boolTensor [true]), ("ran", .natVal 1)], true, 1) := by
  exact c2_initial_true_one_net_run c2Step "stop" c2Net [] (fun _ => true)
    c2Ws0 [("stop", .boolTensor [true]), ("ran", .natVal 1)] 10
    rfl rfl (by decide) rfl rfl rfl (by omega)

/-- C10 (confirmed): polling the should-stop blob reads an absent blob or an
uninitialized blob as false (so iteration continues); a blob holding a value
must hold a one-element boolean tensor, whose element is the result; any
other held value (wrong-size boolean tensor, non-boolean tensor, non-tensor
payload) makes polling abort rather than coerce. -/
theorem c10_should_stop_polling :
    getShouldStop none = .ok false ∧
    getShouldStop (some .uninit) = .ok false ∧
    (∀ b : Bool, getShouldStop (some (.boolTensor [b])) = .ok b) ∧
    (∀ l : List Bool, l.length ≠ 1 →
      getShouldStop (some (.boolTensor l)) = .error "expects a scalar boolean") ∧
    (∀ n : Nat, (getShouldStop (some (.natVal n))).isOk = false) ∧
    (getShouldStop (some .opaqueVal)).isOk = false ∧
    (∀ (ws : Ws) (n : String),
      wsLookup ws n = none ∨ wsLookup ws n = some .uninit →
      checkShouldStop (some n) ws = .ok false) := by
  refine ⟨rfl, rfl, fun b => rfl, ?_, fun n => rfl, rfl, ?_⟩
  · intro l hl
    match l with
    | [] => rfl
    | [b] => simp at hl
    | a :: b :: rest => rfl
  · intro ws n h
    rcases h with h | h <;> simp [checkShouldStop, h, getShouldStop]

/-- Witness for `c10_should_stop_polling` at concrete blob contents. -/
theorem c10_should_stop_polling_witness :
    getShouldStop (some (.boolTensor [true])) = .ok true ∧
    getShouldStop (some (.boolTensor [])) = .error "expects a scalar boolean" ∧
    checkShouldStop (some "absent") [] = .ok false := by
  exact ⟨c10_should_stop_polling.2.2.1 true,
    c10_should_stop_polling.2.2.2.1 [] (by decide),
    c10_should_stop_polling.2.2.2.2.2.2 [] "absent" (Or.inl rfl)⟩

/-! ## Operator schema verification (`caffe2/core/operator_schema.cc`)

`OpSchema::Verify` checks arity bounds and predicates, the optional output
calculator, and the in-place input/output pairing policy.  Schema callbacks
(`num_inputs_allowed_` etc.) are modelled as function fields; the defaults in
the header are "always allowed". -/

/-- The fields of an `OperatorDef` consulted by `OpSchema::Verify`. -/
structure OpDef where
  inputs : List String
  outputs : List String

/-- Modelled from the spec: `kCannotComputeNumOutputs` is a sentinel constant
declared in `operator_schema.h` (not among the sources); the spec only says
the output-count calculator is optional.  Its value is irrelevant to the
claims proved here. -/
def kCannotComputeNumOutputs : Int := -1

/-- The fields of an `OpSchema` consulted by `Verify`. -/
structure OpSchemaM where
  min_input : Int := 0
  max_input : Int := Int.ofNat 2147483647
  num_inputs_allowed : Nat → Bool := fun _ => true
  min_output : Int := 0
  max_output : Int := Int.ofNat 2147483647
  num_outputs_allowed : Nat → Bool := fun _ => true
  num_inputs_outputs_allowed : Nat → Nat → Bool := fun _ _ => true
  calculate_output : Option (Nat → Int) := none
  inplace_allowed : Nat → Nat → Bool := fun _ _ => false
  inplace_enforced : Nat → Nat → Bool := fun _ _ => false

/-- The doubly nested in-place loop of `OpSchema::Verify`
(operator_schema.cc:50-73): every (input index, output index) pair must
avoid both rejection conditions. -/
def inplaceCheck (s : OpSchemaM) (d : OpDef) : Bool :=
  (List.range d.inputs.length).all fun in_idx =>
    (List.range d.outputs.length).all fun out_idx =>
      (!(d.inputs.getD in_idx "" == d.outputs.getD out_idx "" &&
         !s.inplace_allowed in_idx out_idx &&
         !s.inplace_enforced in_idx out_idx)) &&
      (!(d.inputs.getD in_idx "" != d.outputs.getD out_idx "" &&
         s.inplace_enforced in_idx out_idx))

/-- The calculated-output-count check of `OpSchema::Verify`
(operator_schema.cc:38-47), true when the definition must be rejected. -/
def outputCountMismatch (s : OpSchemaM) (nin nout : Nat) : Bool :=
  match s.calculate_output with
  | some f => f nin != kCannotComputeNumOutputs && (nout : Int) != f nin
  | none => false

/-- `OpSchema::Verify` (operator_schema.cc:7-77). -/
def verify (s : OpSchemaM) (d : OpDef) : Bool :=
  if (d.inputs.length : Int) < s.min_input ||
     (d.inputs.length : Int) > s.max_input then false
  else if !s.num_inputs_allowed d.inputs.length then false
  else if (d.outputs.length : Int) < s.min_output ||
          (d.outputs.length : Int) > s.max_output then false
  else if !s.num_outputs_allowed d.outputs.length then false
  else if !s.num_inputs_outputs_allowed d.inputs.length d.outputs.length then
    false
  else if outputCountMismatch s d.inputs.length d.outputs.length then false
  else inplaceCheck s d

/-- C5 (confirmed): verification rejects a definition in which some input
name equals some output name at a pair of indices the schema neither allows
nor enforces in-place; rejects a definition in which the schema enforces
in-place at a pair whose actual input and output names differ; and any
definition passing verification violates neither condition at any index
pair. -/
theorem c5_verify_inplace_policy (s : OpSchemaM) (d : OpDef) :
    ((∃ i o, i < d.inputs.length ∧ o < d.outputs.length ∧
        d.inputs.getD i "" = d.outputs.getD o "" ∧
        s.inplace_allowed i o = false ∧ s.inplace_enforced i o = false) →
      verify s d = false) ∧
    ((∃ i o, i < d.inputs.length ∧ o < d.outputs.length ∧
        d.inputs.getD i "" ≠ d.outputs.getD o "" ∧
        s.inplace_enforced i o = true) →
      verify s d = false) ∧
    (verify s d = true →
      ∀ i o, i < d.inputs.length → o < d.outputs.length →
        (d.inputs.getD i "" = d.outputs.getD o "" →
          s.inplace_allowed i o = true ∨ s.inplace_enforced i o = true) ∧
        (s.inplace_enforced i o = true →
          d.inputs.getD i "" = d.outputs.getD o "")) := by
  have hkey : ∀ i o, i < d.inputs.length → o < d.outputs.length →
      inplaceCheck s d = true →
      (d.inputs.getD i "" = d.outputs.getD o "" →
        s.inplace_allowed i o = true ∨ s.inplace_enforced i o = true) ∧
      (s.inplace_enforced i o = true →
        d.inputs.getD i "" = d.outputs.getD o "") := by
    intro i o hi ho hc
    rw [inplaceCheck, List.all_eq_true] at hc
    have h1 := hc i (List.mem_range.mpr hi)
    rw [List.all_eq_true] at h1
    have h2 := h1 o (List.mem_range.mpr ho)
    by_cases heq : d.inputs.getD i "" = d.outputs.getD o ""
    · rcases hal : s.inplace_allowed i o
      · rcases hen : s.inplace_enforced i o
        · exfalso
          simp [hal, hen] at h2
          exact h2 (by simpa using heq)
        · exact ⟨fun _ => Or.inr rfl, fun _ => heq⟩
      · exact ⟨fun _ => Or.inl rfl, fun _ => heq⟩
    · refine ⟨fun h => absurd h heq, fun henf => ?_⟩
      exfalso
      simp [henf] at h2
      exact heq (by simpa using h2)
  have hcases : verify s d = false ∨ verify s d = inplaceCheck s d := by
    unfold verify
    repeat' first | exact Or.inl rfl | exact Or.inr rfl | split
  have hver : verify s d = true → inplaceCheck s d = true := by
    intro hv
    rcases hcases with h | h
    · rw [hv] at h; exact absurd h (by simp)
    · rw [← h]; exact hv
  refine ⟨?_, ?_, fun hv i o hi ho => hkey i o hi ho (hver hv)⟩
  · rintro ⟨i, o, hi, ho, heq, hal, hen⟩
    by_contra hne
    rw [Bool.not_eq_false] at hne
    rcases (hkey i o hi ho (hver hne)).1 heq with h | h
    · rw [hal] at h; exact Bool.false_ne_true h
    · rw [hen] at h; exact Bool.false_ne_true h
  · rintro ⟨i, o, hi, ho, hneq, hen⟩
    by_contra hne
    rw [Bool.not_eq_false] at hne
    exact hneq ((hkey i o hi ho (hver hne)).2 hen)

/-- Witness for `c5_verify_inplace_policy`: the `Append` schema
(`EnforceInplace {{0,0}}`, dataset_ops.cc:832-835) rejects a definition whose
first input differs from its output, and accepts the in-place form. -/
theorem c5_verify_inplace_policy_witness :
    verify { min_input := 2, max_input := 2, min_output := 1, max_output := 1,
             inplace_enforced := fun i o => i == 0 && o == 0 }
           { inputs := ["ds", "new"], outputs := ["out"] } = false ∧
    verify { min_input := 2, max_input := 2, min_output := 1, max_output := 1,
             inplace_enforced := fun i o => i == 0 && o == 0 }
           { inputs := ["ds", "new"], outputs := ["ds"] } = true := by
  constructor
  · exact (c5_verify_inplace_policy
      { min_input := 2, max_input := 2, min_output := 1, max_output := 1,
        inplace_enforced := fun i o => i == 0 && o == 0 }
      { inputs := ["ds", "new"], outputs := ["out"] }).2.1
      ⟨0, 0, by decide, by decide, by decide, rfl⟩
  · rfl

/-! ## Dataset append (`caffe2/operators/dataset_ops.cc`, `AppendOp`)

A tensor is modelled by its shape, its element type id (`meta`), and its
flat element data.  `size` is the product of the dims, as in the source;
`Extend` grows dim 0 (the 40% growth factor only affects reserved capacity,
not the observable contents). -/

structure TensorM where
  dims : List Nat
  meta : Nat
  data : List Int
  deriving DecidableEq, Repr

/-- Product of a dims list. -/
def prodDims (l : List Nat) : Nat := l.foldl (· * ·) 1

theorem foldl_mul_init (l : List Nat) :
    ∀ i : Nat, l.foldl (· * ·) i = i * l.foldl (· * ·) 1 := by
  induction l with
  | nil => intro i; simp
  | cons e rest ih =>
    intro i
    rw [List.foldl_cons, List.foldl_cons, ih (i * e), ih (1 * e)]
    ring

theorem prodDims_cons (d : Nat) (l : List Nat) :
    prodDims (d :: l) = d * prodDims l := by
  unfold prodDims
  rw [List.foldl_cons, foldl_mul_init l (1 * d)]
  ring

/-- `Tensor::size()`: product of the dims. -/
def tsize (t : TensorM) : Nat := prodDims t.dims

/-- A tensor is well formed when it holds exactly `size` elements. -/
def twf (t : TensorM) : Prop := t.data.length = tsize t

/-- `AppendOp::RunOnDevice` (dataset_ops.cc:560-582).  The output is the
first input in place (`CAFFE_ENFORCE(&a == c)`), so the model returns the
new contents of that tensor.  `CAFFE_ENFORCE` failures are `Except.error`. -/
def appendOp (a b : TensorM) : Except String TensorM :=
  if b.dims.length < 1 then .error "b.ndim() >= 1"
  else if tsize a = 0 then .ok b
  else if a.dims.length ≠ b.dims.length then .error "c->ndim() == b.ndim()"
  else if a.meta ≠ b.meta then .error "a.meta() == b.meta()"
  else if a.dims.drop 1 ≠ b.dims.drop 1 then
    .error "a.dims()[i] == b.dims()[i]"
  else
    .ok { dims := (a.dims.headD 0 + b.dims.headD 0) :: a.dims.drop 1,
          meta := a.meta,
          data := a.data ++ b.data }

/-- C6 (confirmed): a successful `Append` of `src` onto `dst` (the source
enforces `src.ndim ≥ 1` and, when `dst` is non-empty, equal element types
and equal trailing dims) yields a tensor whose size is the sum of the two
sizes, whose trailing dims are those of `src`, and whose first
`size(dst_before)` elements are exactly the prior contents of `dst`. -/
theorem c6_append_grows_dim0 (a b c : TensorM)
    (hwa : twf a) (hwb : twf b)
    (hok : appendOp a b = .ok c) :
    tsize c = tsize a + tsize b ∧
    c.dims.drop 1 = b.dims.drop 1 ∧
    c.data.take (tsize a) = a.data ∧
    twf c := by
  unfold appendOp at hok
  split at hok
  · exact absurd hok (by simp)
  · rename_i hb1
    split at hok
    · rename_i ha0
      obtain rfl : b = c := by injection hok
      refine ⟨by omega, rfl, ?_, hwb⟩
      rw [ha0, List.take_zero]
      have hlen : a.data.length = 0 := by rw [hwa, ha0]
      exact (List.eq_nil_of_length_eq_zero hlen).symm
    · rename_i ha0
      split at hok
      · exact absurd hok (by simp)
      · split at hok
        · exact absurd hok (by simp)
        · split at hok
          · exact absurd hok (by simp)
          · rename_i hnd _ htail
            obtain rfl :
                (⟨(a.dims.headD 0 + b.dims.headD 0) :: a.dims.drop 1,
                  a.meta, a.data ++ b.data⟩ : TensorM) = c := by
              injection hok
            obtain ⟨b0, brest, hbdims⟩ : ∃ b0 brest, b.dims = b0 :: brest := by
              cases hd : b.dims with
              | nil => exact absurd (by rw [hd]; simp) hb1
              | cons x xs => exact ⟨x, xs, rfl⟩
            obtain ⟨a0, arest, hadims⟩ : ∃ a0 arest, a.dims = a0 :: arest := by
              cases hd : a.dims with
              | nil =>
                exfalso
                rw [hd, hbdims] at hnd
                simp at hnd
              | cons x xs => exact ⟨x, xs, rfl⟩
            have htails : arest = brest := by
              have h := htail
              rw [hadims, hbdims] at h
              simpa using h
            have hta : tsize a = a0 * prodDims arest := by
              unfold tsize; rw [hadims, prodDims_cons]
            have htb : tsize b = b0 * prodDims arest := by
              unfold tsize; rw [hbdims, htails, prodDims_cons]
            have hsz :
                tsize (⟨(a.dims.headD 0 + b.dims.headD 0) :: a.dims.drop 1,
                  a.meta, a.data ++ b.data⟩ : TensorM) = tsize a + tsize b := by
              unfold tsize
              simp only
              rw [hadims, hbdims]
              simp only [List.headD_cons, List.drop_one, List.tail_cons]
              rw [prodDims_cons, prodDims_cons, prodDims_cons, htails]
              ring
            refine ⟨hsz, ?_, ?_, ?_⟩
            · simp only
              rw [hadims, hbdims]
              simp [htails]
            · simp only
              rw [← hwa, List.take_left]
            · unfold twf
              rw [hsz]
              simp only [List.length_append]
              rw [hwa, hwb]

/-- Witness for `c6_append_grows_dim0` on concrete 2×2 and 1×2 tensors. -/
theorem c6_append_grows_dim0_witness :
    tsize ⟨[3, 2], 7, [1, 2, 3, 4, 5, 6]⟩ =
      tsize ⟨[2, 2], 7, [1, 2, 3, 4]⟩ + tsize ⟨[1, 2], 7, [5, 6]⟩ ∧
    (TensorM.dims ⟨[3, 2], 7, [1, 2, 3, 4, 5, 6]⟩).drop 1 =
      (TensorM.dims ⟨[1, 2], 7, [5, 6]⟩).drop 1 ∧
    (TensorM.data ⟨[3, 2], 7, [1, 2, 3, 4, 5, 6]⟩).take
      (tsize ⟨[2, 2], 7, [1, 2, 3, 4]⟩) = TensorM.data ⟨[2, 2], 7, [1, 2, 3, 4]⟩ ∧
    twf ⟨[3, 2], 7, [1, 2, 3, 4, 5, 6]⟩ := by
  exact c6_append_grows_dim0 ⟨[2, 2], 7, [1, 2, 3, 4]⟩ ⟨[1, 2], 7, [5, 6]⟩
    ⟨[3, 2], 7, [1, 2, 3, 4, 5, 6]⟩ rfl rfl rfl

/-! ## `Workspace::CreateNet` (`caffe2/core/workspace.cc:133-153`)

The net map is an association list name → net.  Construction of a net
(`caffe2::CreateNet`) is an external factory modelled as a function returning
`Option ν` (null on failure).  To express the destruction ordering required
by the claim, `createNet` also emits the observable event trace. -/

/-- Observable events of `Workspace::CreateNet`. -/
inductive WsEvent where
  | eraseNet (name : String) : WsEvent
  | constructNet (name : String) : WsEvent
  deriving DecidableEq, Repr

/-- A workspace's `net_map_`. -/
abbrev NetMap (ν : Type) := List (String × ν)

def netMapLookup {ν : Type} (m : NetMap ν) (n : String) : Option ν :=
  match m with
  | [] => none
  | (k, v) :: rest => if k = n then some v else netMapLookup rest n

def netMapErase {ν : Type} (m : NetMap ν) (n : String) : NetMap ν :=
  match m with
  | [] => []
  | (k, v) :: rest =>
    if k = n then netMapErase rest n else (k, v) :: netMapErase rest n

def netMapSet {ν : Type} (m : NetMap ν) (n : String) (v : ν) : NetMap ν :=
  match m with
  | [] => [(n, v)]
  | (k, w) :: rest =>
    if k = n then (n, v) :: rest else (k, w) :: netMapSet rest n v

/-- `Workspace::CreateNet` (workspace.cc:133-153): a `NetDef` without a name
trips `CAFFE_ENFORCE`; an existing net under the same name is erased before
the factory runs; a factory returning null is erased again and reported as
failure (`none`).  The returned trace lists erasures and the construction in
program order. -/
def createNetNamed {ν : Type} (factory : String → Option ν) (m : NetMap ν)
    (n : String) : NetMap ν × Option ν × List WsEvent :=
  let m1 := if (netMapLookup m n).isSome then netMapErase m n else m
  let tr1 : List WsEvent :=
    if (netMapLookup m n).isSome then [.eraseNet n] else []
  match factory n with
  | none =>
    (netMapErase m1 n, none,
      tr1 ++ [WsEvent.constructNet n, WsEvent.eraseNet n])
  | some v => (netMapSet m1 n v, some v, tr1 ++ [WsEvent.constructNet n])

def createNet {ν : Type} (factory : String → Option ν) (m : NetMap ν)
    (name : Option String) :
    Except String (NetMap ν × Option ν × List WsEvent) :=
  match name with
  | none => .error "Net definition should have a name."
  | some n => .ok (createNetNamed factory m n)

/-- Erasing removes the binding. -/
theorem netMapLookup_erase {ν : Type} (m : NetMap ν) (n : String) :
    netMapLookup (netMapErase m n) n = none := by
  induction m with
  | nil => rfl
  | cons kv rest ih =>
    unfold netMapErase
    by_cases h : kv.1 = n
    · simp only [h, if_true]
      exact ih
    · simp only [h, if_false]
      unfold netMapLookup
      simp [h, ih]

/-- Setting installs the binding. -/
theorem netMapLookup_set {ν : Type} (m : NetMap ν) (n : String) (v : ν) :
    netMapLookup (netMapSet m n v) n = some v := by
  induction m with
  | nil => simp [netMapSet, netMapLookup]
  | cons kv rest ih =>
    unfold netMapSet
    by_cases h : kv.1 = n
    · simp [h, netMapLookup]
    · simp only [h, if_false]
      unfold netMapLookup
      simp [h, ih]

/-- C8 (confirmed): when the name is already bound, `CreateNet` erases the
old net strictly before running the net factory (the erase event precedes
the construct event in the trace, and the factory sees a map without the
binding); when construction fails, the entry is erased and failure is
reported, leaving no net bound under that name. -/
theorem c8_create_net_overwrite_and_failure {ν : Type}
    (factory : String → Option ν) (m : NetMap ν) (n : String)
    (mOut : NetMap ν) (res : Option ν) (tr : List WsEvent)
    (hrun : createNet factory m (some n) = .ok (mOut, res, tr)) :
    ((netMapLookup m n).isSome →
      ∃ i j, i < j ∧ tr.getD i (.constructNet n) = .eraseNet n ∧
        tr.getD j (.eraseNet n) = .constructNet n) ∧
    (factory n = none →
      netMapLookup mOut n = none ∧ res = none) ∧
    (∀ v, factory n = some v →
      netMapLookup mOut n = some v ∧ res = some v) := by
  simp only [createNet, createNetNamed] at hrun
  by_cases hbound : (netMapLookup m n).isSome <;>
    rcases hf : factory n with _ | v <;>
      rw [hf] at hrun <;>
        simp only [hbound, if_true, Bool.false_eq_true, if_false,
          Except.ok.injEq, Prod.mk.injEq] at hrun <;>
          obtain ⟨rfl, rfl, rfl⟩ := hrun
  · exact ⟨fun _ => ⟨0, 1, by omega, rfl, rfl⟩,
      fun _ => ⟨netMapLookup_erase _ n, rfl⟩,
      fun w hw => by cases hw⟩
  · refine ⟨fun _ => ⟨0, 1, by omega, rfl, rfl⟩, ?_, ?_⟩
    · intro habs; cases habs
    · intro w hw
      obtain rfl : v = w := by injection hw
      exact ⟨netMapLookup_set _ n v, rfl⟩
  · exact ⟨fun h => absurd h hbound,
      fun _ => ⟨netMapLookup_erase _ n, rfl⟩,
      fun w hw => by cases hw⟩
  · refine ⟨fun h => absurd h hbound, ?_, ?_⟩
    · intro habs; cases habs
    · intro w hw
      obtain rfl : v = w := by injection hw
      exact ⟨netMapLookup_set _ n v, rfl⟩

/-- Witness for `c8_create_net_overwrite_and_failure`: overwrite an existing
binding with a failing factory. -/
theorem c8_create_net_overwrite_and_failure_witness :
    (∃ i j, i < j ∧
      ([WsEvent.eraseNet "train", WsEvent.constructNet "train",
        WsEvent.eraseNet "train"].getD i (.constructNet "train")) =
          WsEvent.eraseNet "train" ∧
      ([WsEvent.eraseNet "train", WsEvent.constructNet "train",
        WsEvent.eraseNet "train"].getD j (.eraseNet "train")) =
          WsEvent.constructNet "train") ∧
    netMapLookup ([] : NetMap Nat) "train" = none := by
  have h := c8_create_net_overwrite_and_failure (ν := Nat)
    (fun _ => none) [("train", 1)] "train" [] none
    [WsEvent.eraseNet "train", WsEvent.constructNet "train",
      WsEvent.eraseNet "train"] rfl
  exact ⟨h.1 (by decide), (h.2.1 rfl).1⟩

/-! ## AsyncDAGNet event recording (`caffe2/core/net_gpu.cc`)

The per-operator `eventRecorded_` bitmap is the model state.  A net is its
per-operator parent lists and the (abstract) results of each operator's
`RunAsync`.  A schedule is the sequence of chains `DAGNetBase::Run`
dispatches; the claims are schedule-independent. -/

structure AsyncNet where
  parents : List (List Nat)
  opSuccess : List Bool

/-- Tail operator of a chain (`chain.back()`). -/
def sinkOf (chain : List Nat) : Nat := chain.getLastD 0

/-- `AsyncDAGNet::RunAt` (net_gpu.cc:162-203) restricted to its effect on
the `eventRecorded_` flags and its success flag: enforce a non-empty chain,
enforce that some parent of the chain head has recorded its event (when it
has parents at all), run the chain's operators accumulating success, then
enforce the tail's event is not already recorded and record it. -/
def runAt (net : AsyncNet) (st : List Bool) (chain : List Nat) :
    Except String (List Bool × Bool) :=
  match chain with
  | [] => .error "Chain should not be empty."
  | source :: _ =>
    let ps := net.parents.getD source []
    if !(ps.isEmpty || ps.any fun p => st.getD p false) then
      .error "None of the parent is recorded for an event."
    else
      let success := chain.foldl (fun acc idx => acc && net.opSuccess.getD idx true) true
      if st.getD (sinkOf chain) false then
        .error "An event should not be recorded."
      else .ok (st.set (sinkOf chain) true, success)

/-- Sequential execution of a schedule of chains (the model of
`DAGNetBase::Run`'s dispatch), accumulating the net-wide success flag. -/
def runChains (net : AsyncNet) : List Bool → List (List Nat) →
    Except String (List Bool × Bool)
  | st, [] => .ok (st, true)
  | st, c :: cs =>
    match runAt net st c with
    | .error e => .error e
    | .ok (st1, s1) =>
      match runChains net st1 cs with
      | .error e => .error e
      | .ok (st2, s2) => .ok (st2, s1 && s2)

/-- `AsyncDAGNet::Run` (net_gpu.cc:205-226): reset every `eventRecorded_`
flag, then dispatch the chains.  (The trailing host synchronization does not
touch the flags.) -/
def asyncRun (net : AsyncNet) (numOps : Nat) (schedule : List (List Nat)) :
    Except String (List Bool × Bool) :=
  runChains net (List.replicate numOps false) schedule

/-- `runAt` only sets the sink flag, and only if it was unset. -/
theorem runAt_ok_state (net : AsyncNet) (st st' : List Bool)
    (chain : List Nat) (s : Bool)
    (h : runAt net st chain = .ok (st', s)) :
    st.getD (sinkOf chain) false = false ∧
    st' = st.set (sinkOf chain) true := by
  unfold runAt at h
  match chain with
  | [] => exact absurd h (by simp)
  | source :: rest =>
    simp only at h
    split at h
    · exact absurd h (by simp)
    · split at h
      · exact absurd h (by simp)
      · rename_i hrec
        rw [Bool.not_eq_true] at hrec
        refine ⟨hrec, ?_⟩
        simp only [Except.ok.injEq, Prod.mk.injEq] at h
        exact h.1.symm

/-- Setting a flag never clears another flag. -/
theorem getD_set_mono (st : List Bool) (i j : Nat)
    (hi : st.getD i false = true) : (st.set j true).getD i false = true := by
  by_cases hij : i = j
  · subst hij
    by_cases hlen : i < st.length
    · simp [List.getD, List.getElem?_set_eq_of_lt, hlen]
    · rw [List.set_eq_of_length_le (by omega)]
      exact hi
  · simp only [List.getD_eq_getElem?_getD] at hi ⊢
    rw [List.getElem?_set_ne fun h => hij h.symm]
    exact hi

/-- Sequential chain execution records each sink at most once: on success
(with sinks within the flag vector, as `eventRecorded_` is sized to the op
count) the sinks of the schedule are pairwise distinct and none was recorded
before the run. -/
theorem runChains_sinks_nodup (net : AsyncNet) :
    ∀ (schedule : List (List Nat)) (st st' : List Bool) (s : Bool),
    (∀ c ∈ schedule, sinkOf c < st.length) →
    runChains net st schedule = .ok (st', s) →
    (schedule.map sinkOf).Nodup ∧
    ∀ c ∈ schedule, st.getD (sinkOf c) false = false := by
  intro schedule
  induction schedule with
  | nil => intro st st' s _ _; exact ⟨List.nodup_nil, by simp⟩
  | cons c cs ih =>
    intro st st' s hrange h
    unfold runChains at h
    rcases h1 : runAt net st c with e | ⟨st1, s1⟩
    · rw [h1] at h; exact absurd h (by simp)
    · rw [h1] at h
      dsimp only at h
      rcases h2 : runChains net st1 cs with e | ⟨st2, s2⟩
      · rw [h2] at h; exact absurd h (by simp)
      · obtain ⟨hunset, rfl⟩ := runAt_ok_state net st st1 c s1 h1
        have hlen1 : (st.set (sinkOf c) true).length = st.length :=
          List.length_set st _ _
        have hrange1 : ∀ c' ∈ cs, sinkOf c' < (st.set (sinkOf c) true).length := by
          intro c' hc'
          rw [hlen1]
          exact hrange c' (List.mem_cons_of_mem c hc')
        obtain ⟨hnd, hrest⟩ := ih (st.set (sinkOf c) true) st2 s2 hrange1 h2
        have hsinkset : (st.set (sinkOf c) true).getD (sinkOf c) false = true := by
          have hlt : sinkOf c < st.length := hrange c (List.mem_cons_self c cs)
          simp [List.getD, List.getElem?_set_eq_of_lt, hlt]
        refine ⟨List.nodup_cons.mpr ⟨?_, hnd⟩, ?_⟩
        · intro hmem
          obtain ⟨c', hc', hcs⟩ := List.mem_map.mp hmem
          have hfalse := hrest c' hc'
          rw [hcs, hsinkset] at hfalse
          simp at hfalse
        · intro c' hc'
          rcases List.mem_cons.mp hc' with rfl | hmem
          · exact hunset
          · have h1' := hrest c' hmem
            by_contra hne
            rw [Bool.not_eq_false] at hne
            rw [getD_set_mono st (sinkOf c') (sinkOf c) hne] at h1'
            simp at h1'

/-- C4 (confirmed): within a single `AsyncDAGNet` run, each operator's event
is recorded at most once — on a successful run the chain sinks are pairwise
distinct, a chain whose tail event is already recorded aborts with an
invariant violation, and every `Run()` starts from all recorded flags
unset. -/
theorem c4_event_recorded_once (net : AsyncNet) (numOps : Nat)
    (schedule : List (List Nat)) (st' : List Bool) (s : Bool)
    (hrange : ∀ c ∈ schedule, sinkOf c < numOps)
    (hok : asyncRun net numOps schedule = .ok (st', s)) :
    (schedule.map sinkOf).Nodup ∧
    asyncRun net numOps schedule =
      runChains net (List.replicate numOps false) schedule ∧
    (∀ (st : List Bool) (chain : List Nat), chain ≠ [] →
      st.getD (sinkOf chain) false = true →
      (runAt net st chain).isOk = false) := by
  refine ⟨?_, rfl, ?_⟩
  · have hrange' : ∀ c ∈ schedule, sinkOf c <
        (List.replicate numOps false).length := by
      intro c hc
      rw [List.length_replicate]
      exact hrange c hc
    exact (runChains_sinks_nodup net schedule (List.replicate numOps false)
      st' s hrange' hok).1
  · intro st chain hne hset
    rcases chain with _ | ⟨source, rest⟩
    · exact absurd rfl hne
    · unfold runAt
      simp only
      rw [hset]
      split <;> rfl

/-- Witness for `c4_event_recorded_once`: a two-chain schedule over a
three-op net. -/
theorem c4_event_recorded_once_witness :
    (([[0, 1], [2]] : List (List Nat)).map sinkOf).Nodup ∧
    (runAt ⟨[[], [], [1]], [true, true, true]⟩ [true, true, false] [0]).isOk
      = false := by
  have h := c4_event_recorded_once ⟨[[], [], [1]], [true, true, true]⟩ 3
    [[0, 1], [2]] [false, true, true] true
    (by intro c hc; fin_cases hc <;> decide) rfl
  exact ⟨h.1, h.2.2 [true, true, false] [0] (by decide) rfl⟩

/-! ## `TreeIterator::advance` (`caffe2/operators/dataset_ops.cc:100-138`)

Offset domains are `0..D` where `D` is the number of length fields;
`parentIds.getD (j-1) 0` is `offsetFieldIdFor(lengthField(j-1))`, the offset
index of domain `j`'s parent.  The `TreeIterator` constructor's
topological-sort enforcement (dataset_ops.cc:81-97) guarantees
`parentIds.getD i 0 ≤ i`, which the theorems take as a hypothesis.
`lengths` holds one length array per non-root domain; integer widths
(`int32` lengths, `int64` offsets) are immaterial here and both are
modelled as `Int`. -/

/-- The inner summation loop `for (k = 0; k < sizes[parent]; ++k)
total += *(length++)` of `advance`: read `k` entries starting at `pos`
(a read past the end contributes the default 0; the C++ counterpart is
never called out of range when limits are consistent). -/
def readSum (l : List Int) (pos k : Nat) : Int :=
  match k with
  | 0 => 0
  | k + 1 => l.getD pos 0 + readSum l (pos + 1) k

/-- `sizes[d]` for a non-root domain `d = j`: the sum of the parent's
consumed slice of the length array (dataset_ops.cc:121-127). -/
def childTotal (parentIds : List Nat) (lengths : List (List Int))
    (offsets sizes : List Int) (j : Nat) : Int :=
  readSum (lengths.getD (j - 1) [])
    (offsets.getD (parentIds.getD (j - 1) 0) 0).toNat
    (sizes.getD (parentIds.getD (j - 1) 0) 0).toNat

/-- The child-domain loop of `advance` (dataset_ops.cc:120-136), building
the `sizes` and `newOffsets` vectors from domain `j` up; the bound check
`offset + total <= limits[j]` is a `CAFFE_ENFORCE`. -/
def advanceLoop (parentIds : List Nat) (lengths : List (List Int))
    (offsets limits : List Int) :
    List Int → List Int → Nat → Nat → Except String (List Int × List Int)
  | sizes, newOffsets, _, 0 => .ok (newOffsets, sizes)
  | sizes, newOffsets, j, rem + 1 =>
    if limits.getD j 0 <
        offsets.getD j 0 + childTotal parentIds lengths offsets sizes j then
      .error "Inconsistent field length"
    else
      advanceLoop parentIds lengths offsets limits
        (sizes ++ [childTotal parentIds lengths offsets sizes j])
        (newOffsets ++
          [offsets.getD j 0 + childTotal parentIds lengths offsets sizes j])
        (j + 1) rem

/-- `TreeIterator::advance` (dataset_ops.cc:100-138): `CHECK_EQ` the vector
sizes, enforce `limits[0] >= offsets[0]`, take
`sizes[0] = min(limits[0] - offsets[0], num)`, then run the child loop.
Returns `(newOffsets, sizes)`. -/
def advance (parentIds : List Nat) (lengths : List (List Int))
    (offsets limits : List Int) (num : Int) :
    Except String (List Int × List Int) :=
  if lengths.length ≠ parentIds.length then
    .error "CHECK_EQ(lengths.size(), numLengthFields())"
  else if offsets.length ≠ parentIds.length + 1 then
    .error "CHECK_EQ(offsets.size(), numOffsetFields())"
  else if limits.getD 0 0 < offsets.getD 0 0 then
    .error "Tried to advance past end of cursor."
  else
    advanceLoop parentIds lengths offsets limits
      [min (limits.getD 0 0 - offsets.getD 0 0) num]
      [offsets.getD 0 0 + min (limits.getD 0 0 - offsets.getD 0 0) num]
      1 parentIds.length

/-- `readSum` is the sum of the corresponding slice of the list. -/
theorem readSum_eq_sum (l : List Int) :
    ∀ (k pos : Nat), readSum l pos k = ((l.drop pos).take k).sum := by
  intro k
  induction k with
  | zero => intro pos; simp [readSum]
  | succ k ih =>
    intro pos
    unfold readSum
    by_cases hp : pos < l.length
    · rw [List.drop_eq_getElem_cons hp, List.take_succ_cons, List.sum_cons,
        ih (pos + 1)]
      congr 1
      rw [List.getD_eq_getElem?_getD, List.getElem?_eq_getElem hp]
      rfl
    · have h1 : l.getD pos 0 = 0 := by
        rw [List.getD_eq_getElem?_getD, List.getElem?_eq_none (by omega)]
        rfl
      have h2 : l.drop pos = [] := List.drop_eq_nil_of_le (by omega)
      have h3 : l.drop (pos + 1) = [] := List.drop_eq_nil_of_le (by omega)
      rw [ih (pos + 1), h1, h2, h3]
      simp

/-- `getD` inside the taken prefix. -/
theorem getD_take_eq (l : List Int) (j d : Nat) (hd : d < j) :
    (l.take j).getD d 0 = l.getD d 0 := by
  rw [List.getD_eq_getElem?_getD, List.getD_eq_getElem?_getD,
    List.getElem?_take, if_pos hd]

/-- `getD` on the left part of an append. -/
theorem getD_append_left (s t : List Int) (d : Nat) (h : d < s.length) :
    (s ++ t).getD d 0 = s.getD d 0 := by
  rw [List.getD_eq_getElem?_getD, List.getD_eq_getElem?_getD,
    List.getElem?_append, if_pos h]

/-- `getD` at the seam of an append. -/
theorem getD_append_self (s : List Int) (x : Int) :
    (s ++ [x]).getD s.length 0 = x := by
  rw [List.getD_eq_getElem?_getD,
    List.getElem?_append_right (Nat.le_refl _)]
  simp

/-- Characterization of the child-domain loop: on success, the resulting
vectors extend the accumulators, and each domain processed by the loop got
the summed parent slice, the advanced offset, and respects its limit. -/
theorem advanceLoop_spec (parentIds : List Nat) (lengths : List (List Int))
    (offsets limits : List Int)
    (hpar : ∀ i, parentIds.getD i 0 ≤ i) :
    ∀ (rem j : Nat) (sizes newOffsets noff szs : List Int),
    sizes.length = j → newOffsets.length = j → 1 ≤ j →
    advanceLoop parentIds lengths offsets limits sizes newOffsets j rem =
      .ok (noff, szs) →
    szs.length = j + rem ∧ noff.length = j + rem ∧
    szs.take j = sizes ∧ noff.take j = newOffsets ∧
    ∀ d, j ≤ d → d < j + rem →
      szs.getD d 0 = childTotal parentIds lengths offsets szs d ∧
      noff.getD d 0 = offsets.getD d 0 + szs.getD d 0 ∧
      noff.getD d 0 ≤ limits.getD d 0 := by
  intro rem
  induction rem with
  | zero =>
    intro j sizes newOffsets noff szs hsl hnl _ h
    unfold advanceLoop at h
    simp only [Except.ok.injEq, Prod.mk.injEq] at h
    obtain ⟨rfl, rfl⟩ := h
    refine ⟨by omega, by omega, ?_, ?_, fun d hd1 hd2 => by omega⟩
    · rw [← hsl, List.take_length]
    · rw [← hnl, List.take_length]
  | succ rem ih =>
    intro j sizes newOffsets noff szs hsl hnl hj h
    unfold advanceLoop at h
    split at h
    · exact absurd h (by simp)
    · rename_i hlim
      obtain ⟨hlen1, hlen2, htake1, htake2, hspec⟩ :=
        ih (j + 1)
          (sizes ++ [childTotal parentIds lengths offsets sizes j])
          (newOffsets ++
            [offsets.getD j 0 + childTotal parentIds lengths offsets sizes j])
          noff szs (by simp [hsl]) (by simp [hnl]) (by omega) h
      have hpref : ∀ p, p < j → szs.getD p 0 = sizes.getD p 0 := by
        intro p hp
        have h1 : (szs.take (j + 1)).getD p 0 = szs.getD p 0 :=
          getD_take_eq szs (j + 1) p (by omega)
        rw [← h1, htake1, getD_append_left _ _ p (by omega)]
      have hctEq : childTotal parentIds lengths offsets szs j =
          childTotal parentIds lengths offsets sizes j := by
        unfold childTotal
        rw [hpref (parentIds.getD (j - 1) 0) (by
          have := hpar (j - 1)
          omega)]
      have hszsj : szs.getD j 0 =
          childTotal parentIds lengths offsets sizes j := by
        have h1 : (szs.take (j + 1)).getD j 0 = szs.getD j 0 :=
          getD_take_eq szs (j + 1) j (by omega)
        rw [← h1, htake1, ← hsl, getD_append_self]
      have hnoffj : noff.getD j 0 =
          offsets.getD j 0 + childTotal parentIds lengths offsets sizes j := by
        have h1 : (noff.take (j + 1)).getD j 0 = noff.getD j 0 :=
          getD_take_eq noff (j + 1) j (by omega)
        rw [← h1, htake2, ← hnl, getD_append_self]
      refine ⟨by omega, by omega, ?_, ?_, ?_⟩
      · have h1 : szs.take j = (szs.take (j + 1)).take j := by
          rw [List.take_take]
          congr 1
          omega
        rw [h1, htake1, ← hsl, List.take_left]
      · have h1 : noff.take j = (noff.take (j + 1)).take j := by
          rw [List.take_take]
          congr 1
          omega
        rw [h1, htake2, ← hnl, List.take_left]
      · intro d hd1 hd2
        by_cases hdj : d = j
        · subst hdj
          refine ⟨?_, ?_, ?_⟩
          · rw [hszsj, hctEq]
          · rw [hnoffj, hszsj]
          · rw [hnoffj]
            omega
        · exact hspec d (by omega) (by omega)

/-- C3 (confirmed): on a successful `advance` over offset domains `0..D`
(with the constructor-guaranteed parent ordering), the root gets
`sizes[0] = min(limits[0] − offsets[0], n)` and
`offsets'[0] = offsets[0] + sizes[0]` (so success implies
`offsets[0] ≤ limits[0]`), and every non-root domain `d` with parent `p`
gets `sizes[d] = Σ lengths[d−1][offsets[p] … offsets[p]+sizes[p])`,
`offsets'[d] = offsets[d] + sizes[d]`, with `offsets'[d] ≤ limits[d]`
enforced (the call fails rather than exceeding a limit). -/
theorem c3_advance_spec (parentIds : List Nat) (lengths : List (List Int))
    (offsets limits : List Int) (num : Int) (noff szs : List Int)
    (hpar : ∀ i, parentIds.getD i 0 ≤ i)
    (hok : advance parentIds lengths offsets limits num = .ok (noff, szs)) :
    szs.length = parentIds.length + 1 ∧
    noff.length = parentIds.length + 1 ∧
    offsets.getD 0 0 ≤ limits.getD 0 0 ∧
    szs.getD 0 0 = min (limits.getD 0 0 - offsets.getD 0 0) num ∧
    noff.getD 0 0 = offsets.getD 0 0 + szs.getD 0 0 ∧
    ∀ d, 1 ≤ d → d ≤ parentIds.length →
      szs.getD d 0 =
        (((lengths.getD (d - 1) []).drop
            (offsets.getD (parentIds.getD (d - 1) 0) 0).toNat).take
          (szs.getD (parentIds.getD (d - 1) 0) 0).toNat).sum ∧
      noff.getD d 0 = offsets.getD d 0 + szs.getD d 0 ∧
      noff.getD d 0 ≤ limits.getD d 0 := by
  unfold advance at hok
  split at hok
  · exact absurd hok (by simp)
  · split at hok
    · exact absurd hok (by simp)
    · split at hok
      · exact absurd hok (by simp)
      · rename_i hlenl hleno hroot
        obtain ⟨hlen1, hlen2, htake1, htake2, hspec⟩ :=
          advanceLoop_spec parentIds lengths offsets limits hpar
            parentIds.length 1
            [min (limits.getD 0 0 - offsets.getD 0 0) num]
            [offsets.getD 0 0 + min (limits.getD 0 0 - offsets.getD 0 0) num]
            noff szs rfl rfl (by omega) hok
        have hs0 : szs.getD 0 0 =
            min (limits.getD 0 0 - offsets.getD 0 0) num := by
          have h1 : (szs.take 1).getD 0 0 = szs.getD 0 0 :=
            getD_take_eq szs 1 0 (by omega)
          rw [← h1, htake1]
          rfl
        have hn0 : noff.getD 0 0 =
            offsets.getD 0 0 +
              min (limits.getD 0 0 - offsets.getD 0 0) num := by
          have h1 : (noff.take 1).getD 0 0 = noff.getD 0 0 :=
            getD_take_eq noff 1 0 (by omega)
          rw [← h1, htake2]
          rfl
        refine ⟨by omega, by omega, by omega, hs0, by rw [hn0, hs0], ?_⟩
        intro d hd1 hd2
        obtain ⟨he1, he2, he3⟩ := hspec d (by omega) (by omega)
        refine ⟨?_, he2, he3⟩
        rw [he1]
        unfold childTotal
        rw [readSum_eq_sum]

/-- Witness for `c3_advance_spec`: the spec's cursor example — schema
`["a", "b:lengths", "b:values"]` (one child domain whose parent is the
root), `b:lengths = [2,0,1,3]`, limits `[4, 6]`, batch of 2 from offsets
`[0, 0]`. -/
theorem c3_advance_spec_witness :
    ([2, 2] : List Int).getD 0 0 = min ((4 : Int) - 0) 2 ∧
    ([2, 2] : List Int).getD 1 0 =
      (((([[2, 0, 1, 3]] : List (List Int)).getD 0 []).drop 0).take 2).sum ∧
    ([2, 2] : List Int).getD 1 0 ≤ ([4, 6] : List Int).getD 1 0 := by
  have h := c3_advance_spec [0] [[2, 0, 1, 3]] [0, 0] [4, 6] 2 [2, 2] [2, 2]
    (by
      intro i
      rcases i with _ | i
      · simp [List.getD]
      · simp [List.getD])
    rfl
  refine ⟨?_, ?_, ?_⟩
  · exact h.2.2.2.1
  · exact (h.2.2.2.2.2 1 (Nat.le_refl 1) (Nat.le_refl 1)).1
  · exact (h.2.2.2.2.2 1 (Nat.le_refl 1) (Nat.le_refl 1)).2.2

/-! ## `SortAndShuffleOp` (`caffe2/operators/dataset_ops.cc:392-473`)

The op builds `shuffle_idx = [0..size)`, optionally sorts it by a root-level
field, shuffles within windows of `batch_size * shuffle_size`, then emits
whole batches in a shuffled batch order followed by the unbatched tail.
The two `std::shuffle` calls are modelled by parameters: `winShuffle k`
rearranges the `k`-th window's contents and `batchPerm` is the shuffled
`batch_idx` vector; the claim holds for any rearrangements that permute
their input, which is all `std::shuffle` can produce. -/

/-- The window-shuffle loop (dataset_ops.cc:439-448): while
`offset + w < size`, shuffle the subrange `[offset, offset + w)`.  `fuel`
bounds the iteration count of the model; `size` iterations always suffice
for `w ≥ 1`. -/
def applyWindows (f : Nat → List Nat → List Nat) (w size : Nat) :
    Nat → Nat → Nat → List Nat → List Nat
  | 0, _, _, xs => xs
  | fuel + 1, k, offset, xs =>
    if offset + w < size then
      applyWindows f w size fuel (k + 1) (offset + w)
        (xs.take offset ++ f k ((xs.drop offset).take w) ++
          xs.drop (offset + w))
    else xs

/-- The batch-emission loop (dataset_ops.cc:455-461): for each entry `b` of
the shuffled `batch_idx`, copy `shuffle_idx[b*bs .. (b+1)*bs)`. -/
def gatherBatches (idx : List Nat) (bs : Nat) : List Nat → List Nat
  | [] => []
  | b :: rest => (idx.drop (b * bs)).take bs ++ gatherBatches idx bs rest

/-- `SortAndShuffleOp::RunOnDevice` (dataset_ops.cc:402-468) for a dataset
of `size` top-level entries; `sortKey` is the root-level field's data when
`sort_by_field_idx != -1`.  The source's `std::sort` comparator
`sortdata[i1] < sortdata[i2]` is modelled by a comparison sort
(`insertionSort`); the final copy appends the tail
`shuffle_idx[num_batch*bs ..)` after the shuffled batches. -/
def sortAndShuffle (size bs ss : Nat) (sortKey : Option (List Int))
    (winShuffle : Nat → List Nat → List Nat) (batchPerm : List Nat) :
    Except String (List Nat) :=
  if ¬(0 < bs ∧ 0 < ss ∧ 0 < bs * ss ∧ bs * ss ≤ size) then
    .error "batch_size > 0 && shuffle_size > 0 && batch_size * shuffle_size <= size"
  else
    let idx1 := match sortKey with
      | none => List.range size
      | some data =>
        (List.range size).insertionSort
          (fun i1 i2 => data.getD i1 0 < data.getD i2 0)
    let idx2 :=
      if 1 < bs * ss then applyWindows winShuffle (bs * ss) size size 0 0 idx1
      else idx1
    .ok (gatherBatches idx2 bs batchPerm ++ idx2.drop (size / bs * bs))

/-- Splicing a permuted window back between its flanks permutes the list. -/
theorem applyWindows_perm (f : Nat → List Nat → List Nat)
    (hf : ∀ k l, (f k l).Perm l) (w size : Nat) :
    ∀ (fuel k offset : Nat) (xs : List Nat),
    (applyWindows f w size fuel k offset xs).Perm xs := by
  intro fuel
  induction fuel with
  | zero => intro k offset xs; exact List.Perm.refl _
  | succ fuel ih =>
    intro k offset xs
    unfold applyWindows
    split
    · refine (ih _ _ _).trans ?_
      have hperm :
          (xs.take offset ++
            (f k ((xs.drop offset).take w) ++ (xs.drop offset).drop w)).Perm
          (xs.take offset ++
            ((xs.drop offset).take w ++ (xs.drop offset).drop w)) :=
        ((hf k _).append_right _).append_left _
      rw [List.take_append_drop, List.take_append_drop] at hperm
      have hshape :
          xs.take offset ++ f k ((xs.drop offset).take w) ++
              xs.drop (offset + w) =
            xs.take offset ++
              (f k ((xs.drop offset).take w) ++ (xs.drop offset).drop w) := by
        rw [List.append_assoc, List.drop_drop]
      rw [hshape]
      exact hperm
    · exact List.Perm.refl _

/-- Emitting batches in a permuted order permutes the emitted list. -/
theorem gatherBatches_perm (idx : List Nat) (bs : Nat) :
    ∀ {l1 l2 : List Nat}, l1.Perm l2 →
    (gatherBatches idx bs l1).Perm (gatherBatches idx bs l2) := by
  intro l1 l2 h
  induction h with
  | nil => exact List.Perm.refl _
  | cons x h ih =>
    unfold gatherBatches
    exact ih.append_left _
  | swap x y l =>
    show ((idx.drop (y * bs)).take bs ++
        ((idx.drop (x * bs)).take bs ++ gatherBatches idx bs l)).Perm
      ((idx.drop (x * bs)).take bs ++
        ((idx.drop (y * bs)).take bs ++ gatherBatches idx bs l))
    rw [← List.append_assoc, ← List.append_assoc]
    exact List.perm_append_comm.append_right _
  | trans h1 h2 ih1 ih2 => exact ih1.trans ih2

/-- `gatherBatches` distributes over append. -/
theorem gatherBatches_append (idx : List Nat) (bs : Nat) :
    ∀ (l1 l2 : List Nat), gatherBatches idx bs (l1 ++ l2) =
      gatherBatches idx bs l1 ++ gatherBatches idx bs l2 := by
  intro l1
  induction l1 with
  | nil => intro l2; simp [gatherBatches]
  | cons b rest ih =>
    intro l2
    show (idx.drop (b * bs)).take bs ++ gatherBatches idx bs (rest ++ l2) =
      (idx.drop (b * bs)).take bs ++ gatherBatches idx bs rest ++
        gatherBatches idx bs l2
    rw [ih l2, List.append_assoc]

/-- Emitting the batches in their natural order reproduces the batched
prefix. -/
theorem gatherBatches_range (idx : List Nat) (bs : Nat) :
    ∀ n, gatherBatches idx bs (List.range n) = idx.take (n * bs) := by
  intro n
  induction n with
  | zero => simp [gatherBatches]
  | succ n ih =>
    rw [List.range_succ, gatherBatches_append, ih]
    show idx.take (n * bs) ++
        ((idx.drop (n * bs)).take bs ++ gatherBatches idx bs []) = _
    rw [show gatherBatches idx bs [] = [] from rfl, List.append_nil,
      Nat.succ_mul, List.take_add]

/-- C9 (confirmed): whenever the size enforcement passes
(`0 < batch_size`, `0 < shuffle_size`, `batch_size * shuffle_size ≤ size`)
and the two `std::shuffle` stages are arbitrary permutations, the output
index tensor has length `size` and is a permutation of `[0..size)` — every
index occurs exactly once — regardless of the optional sort, the window
shuffles and the batch shuffle. -/
theorem c9_sort_and_shuffle_perm (size bs ss : Nat)
    (sortKey : Option (List Int)) (winShuffle : Nat → List Nat → List Nat)
    (batchPerm : List Nat) (out : List Nat)
    (hwin : ∀ k l, (winShuffle k l).Perm l)
    (hbp : batchPerm.Perm (List.range (size / bs)))
    (hok : sortAndShuffle size bs ss sortKey winShuffle batchPerm = .ok out) :
    out.Perm (List.range size) ∧ out.length = size ∧
    ∀ i, i < size → out.count i = 1 := by
  unfold sortAndShuffle at hok
  split at hok
  · exact absurd hok (by simp)
  · simp only [Except.ok.injEq] at hok
    subst hok
    set idx1 := (match sortKey with
      | none => List.range size
      | some data =>
        (List.range size).insertionSort
          (fun i1 i2 => data.getD i1 0 < data.getD i2 0)) with hidx1
    have hperm1 : idx1.Perm (List.range size) := by
      rw [hidx1]
      rcases sortKey with _ | data
      · exact List.Perm.refl _
      · exact List.perm_insertionSort _ _
    set idx2 := (if 1 < bs * ss then
        applyWindows winShuffle (bs * ss) size size 0 0 idx1
      else idx1) with hidx2
    have hperm2 : idx2.Perm (List.range size) := by
      rw [hidx2]
      split
      · exact (applyWindows_perm winShuffle hwin (bs * ss) size size 0 0
          idx1).trans hperm1
      · exact hperm1
    have hmain :
        (gatherBatches idx2 bs batchPerm ++ idx2.drop (size / bs * bs)).Perm
          (List.range size) := by
      have h1 : (gatherBatches idx2 bs batchPerm ++
            idx2.drop (size / bs * bs)).Perm
          (gatherBatches idx2 bs (List.range (size / bs)) ++
            idx2.drop (size / bs * bs)) :=
        (gatherBatches_perm idx2 bs hbp).append_right _
      rw [gatherBatches_range idx2 bs (size / bs),
        List.take_append_drop] at h1
      exact h1.trans hperm2
    refine ⟨hmain, ?_, ?_⟩
    · rw [hmain.length_eq, List.length_range]
    · intro i hi
      rw [hmain.count_eq]
      exact List.count_eq_one_of_mem (List.nodup_range _)
        (List.mem_range.mpr hi)

/-- Witness for `c9_sort_and_shuffle_perm`: `size = 4`, `bs = 1`, `ss = 2`,
no sort, window shuffle = reverse, batch order `[3, 2, 1, 0]`. -/
theorem c9_sort_and_shuffle_perm_witness :
    ([3, 2, 0, 1] : List Nat).Perm (List.range 4) ∧
    ([3, 2, 0, 1] : List Nat).length = 4 ∧
    ∀ i, i < 4 → ([3, 2, 0, 1] : List Nat).count i = 1 := by
  exact c9_sort_and_shuffle_perm 4 1 2 none (fun _ l => l.reverse)
    [3, 2, 1, 0] [3, 2, 0, 1]
    (fun k l => l.reverse_perm)
    (by decide)
    rfl

/-! ## `LoadOp::extractFrom` (`caffe2/operators/load_save_op.h:106-198`)

A key-value cursor is a list of `(dbKey, BlobProto)` records.  For the size
accounting only three aspects of a proto matter: whether it is a tensor,
the total size the tensor declares (the product of its dims, which
`Deserialize` installs in the blob), and its optional chunk segment
`[begin, end)`.  Blob contents reduce likewise to empty / tensor-of-size /
non-tensor. -/

inductive ProtoM where
  | tensor (declaredSize : Nat) (segment : Option (Nat × Nat))
  | other
  deriving DecidableEq, Repr

inductive LBlob where
  | empty
  | tensor (size : Nat)
  | nonTensor
  deriving DecidableEq, Repr

/-- `blob->Deserialize(proto)`: a tensor proto resizes the blob's tensor to
the declared dims (filling the segment); a non-tensor proto replaces the
payload. -/
def deserializeBlob (proto : ProtoM) : LBlob :=
  match proto with
  | .tensor dsz _ => .tensor dsz
  | .other => .nonTensor

/-- Modelled from the spec: `kChunkIdSeparator` is declared in
`blob_serialization.h`, which is not among the sources; the spec describes
tensor chunks keyed with a suffix `:<chunk_id>`. -/
def kChunkIdSeparator : Char := ':'

/-- `dbKey.substr(0, dbKey.find(kChunkIdSeparator))` (load_save_op.h:116):
everything before the first chunk separator (the whole key when absent). -/
def stripChunkId (s : String) : String :=
  String.mk (s.data.takeWhile fun c => c ≠ kChunkIdSeparator)

/-- `output_indices_[output_name] = idx++` (load_save_op.h:41-45): a map
from output name to output index, later duplicates overwriting. -/
def buildOutputIndicesAux (m : NetMap Nat) : List String → Nat → NetMap Nat
  | [], _ => m
  | o :: rest, i => buildOutputIndicesAux (netMapSet m o i) rest (i + 1)

def buildOutputIndices (outputs : List String) : NetMap Nat :=
  buildOutputIndicesAux [] outputs 0

/-- The `std::map<int, size_t> blobSizes` of `extractFrom`. -/
def bsLookup (m : List (Nat × Nat)) (k : Nat) : Option Nat :=
  match m with
  | [] => none
  | (k', v) :: rest => if k' = k then some v else bsLookup rest k

def bsSet (m : List (Nat × Nat)) (k v : Nat) : List (Nat × Nat) :=
  match m with
  | [] => [(k, v)]
  | (k', w) :: rest =>
    if k' = k then (k, v) :: rest else (k', w) :: bsSet rest k v

/-- The mutable state of `extractFrom`'s cursor loop.  `consumed` counts the
records the loop has visited (the loop may `break` early). -/
structure LoadState where
  blobs : List LBlob
  blobSizes : List (Nat × Nat)
  loaded : List String
  consumed : Nat
  deriving DecidableEq, Repr

/-- Processing of one used record (the `else` branch at load_save_op.h:119):
reject a key already fully loaded, ensure the blobSizes entry (resetting the
blob on first touch), deserialize, then update the accumulated size —
`+= end - begin` with a segment, `:= size` (enforcing a zero accumulator)
without — and mark the key loaded once the accumulator reaches the tensor's
size.  Returns the new state and whether the record was used (for the
`break` check). -/
def processRecord (outIdx : NetMap Nat) (rec : String × ProtoM)
    (st : LoadState) : Except String (LoadState × Bool) :=
  match netMapLookup outIdx (stripChunkId rec.1) with
  | none => .ok ({ st with consumed := st.consumed + 1 }, false)
  | some blobIndex =>
    if st.loaded.contains (stripChunkId rec.1) then
      .error "Multiple copies of blob in db"
    else
      match rec.2 with
      | .other =>
        .ok ({ blobs := st.blobs.set blobIndex (deserializeBlob rec.2),
               blobSizes :=
                 if (bsLookup st.blobSizes blobIndex).isNone then
                   bsSet st.blobSizes blobIndex 0
                 else st.blobSizes,
               loaded := stripChunkId rec.1 :: st.loaded,
               consumed := st.consumed + 1 }, true)
      | .tensor dsz (some seg) =>
        .ok ({ blobs := st.blobs.set blobIndex (deserializeBlob rec.2),
               blobSizes := bsSet st.blobSizes blobIndex
                 ((bsLookup st.blobSizes blobIndex).getD 0 + (seg.2 - seg.1)),
               loaded :=
                 if dsz ≤ (bsLookup st.blobSizes blobIndex).getD 0 +
                     (seg.2 - seg.1) then
                   stripChunkId rec.1 :: st.loaded
                 else st.loaded,
               consumed := st.consumed + 1 }, true)
      | .tensor dsz none =>
        if (bsLookup st.blobSizes blobIndex).getD 0 ≠ 0 then
          .error "CAFFE_ENFORCE(blobSize.first->second == 0)"
        else
          .ok ({ blobs := st.blobs.set blobIndex (deserializeBlob rec.2),
                 blobSizes := bsSet st.blobSizes blobIndex dsz,
                 loaded := stripChunkId rec.1 :: st.loaded,
                 consumed := st.consumed + 1 }, true)

/-- The cursor loop of `extractFrom` (load_save_op.h:114-171), with the
early `break` once all outputs are loaded. -/
def extractLoop (outIdx : NetMap Nat) (numOut : Nat) :
    List (String × ProtoM) → LoadState → Except String LoadState
  | [], st => .ok st
  | rec :: rest, st =>
    match processRecord outIdx rec st with
    | .error e => .error e
    | .ok (st1, used) =>
      if used && numOut ≤ st1.loaded.length then .ok st1
      else extractLoop outIdx numOut rest st1

/-- `LoadOp::extractFrom` (load_save_op.h:106-198): run the cursor loop
from empty state, then enforce that every touched tensor blob's accumulated
chunk sizes equal its size, and that every output was loaded. -/
def extractFrom (outputs : List String)
    (records : List (String × ProtoM)) : Except String LoadState :=
  match extractLoop (buildOutputIndices outputs) outputs.length records
      ⟨List.replicate outputs.length .empty, [], [], 0⟩ with
  | .error e => .error e
  | .ok st =>
    if st.blobSizes.all fun p =>
        match st.blobs.getD p.1 .empty with
        | .tensor sz => sz == p.2
        | _ => true then
      if st.loaded.length == outputs.length then .ok st
      else .error "Expected to load all blobs"
    else .error "Data size mistmatch for blob"

/-- Declarative per-record contribution to a blob's accumulated size. -/
def chunkContribution (proto : ProtoM) (acc : Nat) : Nat :=
  match proto with
  | .tensor _ (some seg) => acc + (seg.2 - seg.1)
  | .tensor dsz none => dsz
  | .other => acc

/-- Declarative accumulated chunk size for output index `i` over a record
list: fold the contributions of the records whose stripped key maps to
`i`. -/
def chunkSum (outIdx : NetMap Nat) (i : Nat) :
    List (String × ProtoM) → Nat → Nat
  | [], acc => acc
  | rec :: rest, acc =>
    if netMapLookup outIdx (stripChunkId rec.1) = some i then
      chunkSum outIdx i rest (chunkContribution rec.2 acc)
    else chunkSum outIdx i rest acc

theorem bsLookup_set_self (m : List (Nat × Nat)) (k v : Nat) :
    bsLookup (bsSet m k v) k = some v := by
  induction m with
  | nil => simp [bsSet, bsLookup]
  | cons kv rest ih =>
    unfold bsSet
    by_cases h : kv.1 = k
    · simp [h, bsLookup]
    · simp only [h, if_false]
      unfold bsLookup
      simp [h, ih]

theorem bsLookup_set_other (m : List (Nat × Nat)) (k v j : Nat)
    (hjk : k ≠ j) : bsLookup (bsSet m k v) j = bsLookup m j := by
  induction m with
  | nil => simp [bsSet, bsLookup, hjk]
  | cons kv rest ih =>
    unfold bsSet
    by_cases h : kv.1 = k
    · unfold bsLookup
      simp [h, hjk, ih]
    · simp only [h, if_false]
      unfold bsLookup
      by_cases h2 : kv.1 = j
      · simp [h2]
      · simp [h2, ih]

/-- What one processed record does to the accumulated sizes. -/
theorem processRecord_sizes (outIdx : NetMap Nat) (rec : String × ProtoM)
    (st st' : LoadState) (used : Bool)
    (h : processRecord outIdx rec st = .ok (st', used)) :
    st'.consumed = st.consumed + 1 ∧
    ∀ i, (bsLookup st'.blobSizes i).getD 0 =
      if netMapLookup outIdx (stripChunkId rec.1) = some i then
        chunkContribution rec.2 ((bsLookup st.blobSizes i).getD 0)
      else (bsLookup st.blobSizes i).getD 0 := by
  unfold processRecord at h
  rcases hidx : netMapLookup outIdx (stripChunkId rec.1) with _ | blobIndex <;>
    rw [hidx] at h <;> dsimp only at h
  · simp only [Except.ok.injEq, Prod.mk.injEq] at h
    obtain ⟨rfl, -⟩ := h
    refine ⟨rfl, fun i => ?_⟩
    simp [hidx]
  · split at h
    · exact absurd h (by simp)
    · rcases hp : rec.2 with ⟨dsz, _ | sg⟩ | _ <;> rw [hp] at h <;>
        dsimp only at h
      · split at h
        · exact absurd h (by simp)
        · simp only [Except.ok.injEq, Prod.mk.injEq] at h
          obtain ⟨rfl, -⟩ := h
          refine ⟨rfl, fun i => ?_⟩
          by_cases hib : blobIndex = i
          · subst hib
            rw [if_pos rfl, bsLookup_set_self]
            rfl
          · rw [if_neg fun hc => hib (Option.some.inj hc),
              bsLookup_set_other st.blobSizes blobIndex dsz i hib]
      · simp only [Except.ok.injEq, Prod.mk.injEq] at h
        obtain ⟨rfl, -⟩ := h
        refine ⟨rfl, fun i => ?_⟩
        by_cases hib : blobIndex = i
        · subst hib
          rw [if_pos rfl, bsLookup_set_self]
          rfl
        · rw [if_neg fun hc => hib (Option.some.inj hc),
            bsLookup_set_other st.blobSizes blobIndex _ i hib]
      · simp only [Except.ok.injEq, Prod.mk.injEq] at h
        obtain ⟨rfl, -⟩ := h
        refine ⟨rfl, fun i => ?_⟩
        by_cases hib : blobIndex = i
        · subst hib
          rw [if_pos rfl]
          rcases hnew : bsLookup st.blobSizes blobIndex with _ | v
          · simp [hnew, bsLookup_set_self, chunkContribution]
          · simp [hnew, chunkContribution]
        · rw [if_neg fun hc => hib (Option.some.inj hc)]
          rcases hnew : bsLookup st.blobSizes blobIndex with _ | v
          · simp [hnew, bsLookup_set_other st.blobSizes blobIndex 0 i hib]
          · simp [hnew]

/-- Prepending a record to the declarative per-index accumulation. -/
theorem chunkSum_cons (outIdx : NetMap Nat) (i : Nat) (rec : String × ProtoM)
    (rest : List (String × ProtoM)) (acc : Nat) :
    chunkSum outIdx i (rec :: rest) acc =
      chunkSum outIdx i rest
        (if netMapLookup outIdx (stripChunkId rec.1) = some i then
          chunkContribution rec.2 acc
        else acc) := by
  by_cases hc : netMapLookup outIdx (stripChunkId rec.1) = some i <;>
    simp [chunkSum, hc]

/-- The cursor loop accumulates, per output index, exactly the declarative
chunk sums of the records it consumed. -/
theorem extractLoop_sizes (outIdx : NetMap Nat) (numOut : Nat) :
    ∀ (recs : List (String × ProtoM)) (st st' : LoadState),
    extractLoop outIdx numOut recs st = .ok st' →
    st.consumed ≤ st'.consumed ∧
    st'.consumed - st.consumed ≤ recs.length ∧
    ∀ i, (bsLookup st'.blobSizes i).getD 0 =
      chunkSum outIdx i (recs.take (st'.consumed - st.consumed))
        ((bsLookup st.blobSizes i).getD 0) := by
  intro recs
  induction recs with
  | nil =>
    intro st st' h
    unfold extractLoop at h
    simp only [Except.ok.injEq] at h
    subst h
    refine ⟨Nat.le_refl _, by simp, fun i => ?_⟩
    simp [chunkSum]
  | cons rec rest ih =>
    intro st st' h
    unfold extractLoop at h
    rcases hpr : processRecord outIdx rec st with e | ⟨st1, used⟩ <;>
      rw [hpr] at h <;> dsimp only at h
    · exact absurd h (by simp)
    · obtain ⟨hc1, hbs1⟩ := processRecord_sizes outIdx rec st st1 used hpr
      split at h
      · simp only [Except.ok.injEq] at h
        subst h
        refine ⟨by omega, by simp only [List.length_cons]; omega, fun i => ?_⟩
        rw [hc1, show st.consumed + 1 - st.consumed = 1 from by omega]
        show _ = chunkSum outIdx i [rec] _
        rw [chunkSum_cons]
        exact hbs1 i
      · obtain ⟨hle, hlen, hsum⟩ := ih st1 st' h
        refine ⟨by omega, by simp only [List.length_cons]; omega, fun i => ?_⟩
        have hk : st'.consumed - st.consumed =
            (st'.consumed - st1.consumed) + 1 := by omega
        rw [hk, List.take_succ_cons, chunkSum_cons, hsum i, hbs1 i]

/-- A successful lookup pair belongs to the map. -/
theorem bsLookup_mem (m : List (Nat × Nat)) (i acc : Nat)
    (h : bsLookup m i = some acc) : (i, acc) ∈ m := by
  induction m with
  | nil => cases h
  | cons kv rest ih =>
    obtain ⟨k1, v1⟩ := kv
    unfold bsLookup at h
    split at h
    · rename_i hk
      injection h with h
      subst hk
      subst h
      exact List.mem_cons_self _ _
    · exact List.mem_cons_of_mem _ (ih h)

/-- C7 (confirmed): a successful `Load` of a named output set loads every
output, and for every output blob the loop touched, the accumulated sizes
of its deserialized chunks — records grouped by the key before the chunk-id
separator — equal the declarative per-blob chunk sum of the consumed
records, and, when the blob holds a tensor, equal that tensor's declared
total size; a run in which some tensor's chunks do not sum to its declared
size cannot return success. -/
theorem c7_load_size_accounting (outputs : List String)
    (records : List (String × ProtoM)) (st : LoadState)
    (hok : extractFrom outputs records = .ok st) :
    st.loaded.length = outputs.length ∧
    ∀ i acc, bsLookup st.blobSizes i = some acc →
      acc = chunkSum (buildOutputIndices outputs) i
        (records.take st.consumed) 0 ∧
      ∀ sz, st.blobs.getD i .empty = .tensor sz → acc = sz := by
  unfold extractFrom at hok
  rcases hloop : extractLoop (buildOutputIndices outputs) outputs.length
      records ⟨List.replicate outputs.length .empty, [], [], 0⟩ with e | st0 <;>
    rw [hloop] at hok <;> dsimp only at hok
  · exact absurd hok (by simp)
  · split at hok
    · split at hok
      · rename_i hall hlen
        simp only [Except.ok.injEq] at hok
        subst hok
        obtain ⟨-, -, hsum⟩ :=
          extractLoop_sizes (buildOutputIndices outputs) outputs.length
            records _ st0 hloop
        refine ⟨by simpa using hlen, fun i acc hacc => ?_⟩
        constructor
        · have hs := hsum i
          rw [hacc] at hs
          simpa using hs
        · intro sz hsz
          rw [List.all_eq_true] at hall
          have hmem := bsLookup_mem _ _ _ hacc
          have hchk := hall (i, acc) hmem
          rw [hsz] at hchk
          have hsa : sz = acc := by simpa using hchk
          exact hsa.symm
      · exact absurd hok (by simp)
    · exact absurd hok (by simp)

/-- Witness for `c7_load_size_accounting`: one tensor output "w" of
declared size 4, delivered as two chunks of sizes 2 + 2. -/
theorem c7_load_size_accounting_witness :
    (["w"] : List String).length = 1 ∧
    (4 : Nat) = chunkSum (buildOutputIndices ["w"]) 0
      (([("w:0", ProtoM.tensor 4 (some (0, 2))),
         ("w:1", ProtoM.tensor 4 (some (2, 4)))] :
        List (String × ProtoM)).take 2) 0 ∧
    (4 : Nat) = 4 := by
  have h := c7_load_size_accounting ["w"]
    [("w:0", .tensor 4 (some (0, 2))), ("w:1", .tensor 4 (some (2, 4)))]
    ⟨[.tensor 4], [(0, 4)], ["w"], 2⟩ rfl
  exact ⟨h.1, (h.2 0 4 rfl).1, (h.2 0 4 rfl).2 4 rfl⟩

end Caffe2
